import Mathlib

/-!
# fraxtal-da-follower: the scan / validate / decode / pin / checkpoint loop

A shallow embedding of `main.go`.  Collaborators (the L1 RPC client, the IPFS
client, the clock, the file system) appear as explicit inputs of each loop
iteration; everything the loop does to the outside world is recorded in a
trace of events.
-/

namespace FraxtalDA

/-! ## Data model -/

/-- A 20-byte account address (`common.Address`), identified with its numeric value. -/
abbrev Address := Nat

/-- One byte of a payload. -/
abbrev Byte := Fin 256

/-- Go `error` values that travel through `start`.  `lib` is an error produced by a
collaborator (signature recovery, CID parsing, file system, number parsing); the
other constructors are the `fmt.Errorf("...: %w", err)` wrappers of `main.go`. -/
inductive GoError where
  | lib (code : Nat)
  | cannotDecodeFrom (cause : GoError)
  | unableToOpen (filePath : String) (cause : GoError)
  | unableToDecode (filePath : String) (cause : GoError)
  deriving DecidableEq, Repr

deriving instance DecidableEq for Except

/-- The parts of a `*types.Transaction` that `main.go` reads: `tx.To()` (field
`recipient`, `none` being the nil pointer), the result of
`types.Sender(types.LatestSignerForChainID(tx.ChainId()), tx)` and `tx.Data()`. -/
structure Transaction where
  recipient : Option Address
  sender : Except GoError Address
  data : List Byte

/-- The parts of a `*types.Block` that `main.go` reads: `block.Time()` (a `uint64`)
and `block.Transactions()`. -/
structure Block where
  time : Nat
  transactions : List Transaction

/-! ## Transaction validator -/

/-- Source `getFromAddress`: the recovered sender, or the recovery error. -/
def getFromAddress (tx : Transaction) : Except GoError Address :=
  tx.sender

/-- Source `isValidBatcherTx`: the Go result pair `(bool, error)`, `none` being `nil`. -/
def isValidBatcherTx (tx : Transaction) (batcher inbox : Address) : Bool × Option GoError :=
  match tx.recipient with
  | none => (false, none)
  | some rcpt =>
    if rcpt ≠ inbox then (false, none)
    else
      match getFromAddress tx with
      | .error err => (false, some (GoError.cannotDecodeFrom err))
      | .ok frm =>
        if frm ≠ batcher then (false, none)
        else (true, none)

/-! ## Machine integers -/

/-- Go conversion `int64(x)` of an unsigned 64-bit value: two's complement reinterpretation. -/
def toInt64 (u : Nat) : Int :=
  if u % 2 ^ 64 < 2 ^ 63 then ((u % 2 ^ 64 : Nat) : Int) else ((u % 2 ^ 64 : Nat) : Int) - 2 ^ 64

/-- Go conversion `uint64(x)` of a signed value: reduction modulo `2^64`. -/
def toUint64 (x : Int) : Nat :=
  (x % 2 ^ 64).toNat

/-- Go `(*big.Int).Uint64`: the low 64 bits of the absolute value. -/
def bigUint64 (x : Int) : Nat :=
  x.natAbs % 2 ^ 64

/-! ## Content reference: the multibase string -/

/-- Modelled from the spec: the alphabet of the base-32 encoding that `go-multibase`
(a dependency, not part of the repository sources) uses for `multibase.Base32`:
RFC 4648, lower case. -/
def base32Alphabet : List Char :=
  ['a', 'b', 'c', 'd', 'e', 'f', 'g', 'h', 'i', 'j', 'k', 'l', 'm', 'n', 'o', 'p',
   'q', 'r', 's', 't', 'u', 'v', 'w', 'x', 'y', 'z', '2', '3', '4', '5', '6', '7']

/-- Modelled from the spec: the character of a 5-bit group. -/
def base32Char (v : Nat) : Char :=
  base32Alphabet.getD v 'a'

/-- Modelled from the spec: the 5-bit group of a character, `none` for a character
outside the alphabet. -/
def base32Value (c : Char) : Option Nat :=
  let i := base32Alphabet.indexOf c
  if i < 32 then some i else none

/-- Modelled from the spec: the 5-bit groups of a text, `none` when some character is
outside the alphabet. -/
def base32Values : List Char → Option (List Nat)
  | [] => some []
  | c :: cs =>
    match base32Value c with
    | none => none
    | some v => (base32Values cs).map fun tl => v :: tl

/-- Modelled from the spec: base-32 encoding without padding (RFC 4648 section 6): every
5 input bytes give 8 groups of 5 bits; a final quantum of 1, 2, 3 or 4 bytes gives
2, 4, 5 or 7 groups, its missing low bits being zero. -/
def base32Groups : List Byte → List Nat
  | s0 :: s1 :: s2 :: s3 :: s4 :: rest =>
    s0.val / 8 :: (s0.val % 8 * 4 + s1.val / 64) :: s1.val / 2 % 32 ::
    (s1.val % 2 * 16 + s2.val / 16) :: (s2.val % 16 * 2 + s3.val / 128) ::
    s3.val / 4 % 32 :: (s3.val % 4 * 8 + s4.val / 32) :: s4.val % 32 :: base32Groups rest
  | [s0, s1, s2, s3] =>
    [s0.val / 8, s0.val % 8 * 4 + s1.val / 64, s1.val / 2 % 32,
     s1.val % 2 * 16 + s2.val / 16, s2.val % 16 * 2 + s3.val / 128,
     s3.val / 4 % 32, s3.val % 4 * 8]
  | [s0, s1, s2] =>
    [s0.val / 8, s0.val % 8 * 4 + s1.val / 64, s1.val / 2 % 32,
     s1.val % 2 * 16 + s2.val / 16, s2.val % 16 * 2]
  | [s0, s1] =>
    [s0.val / 8, s0.val % 8 * 4 + s1.val / 64, s1.val / 2 % 32, s1.val % 2 * 16]
  | [s0] => [s0.val / 8, s0.val % 8 * 4]
  | [] => []

/-- The byte with the low 8 bits of `n`. -/
def lowByte (n : Nat) : Byte :=
  ⟨n % 256, Nat.mod_lt n (by decide)⟩

/-- Modelled from the spec: the inverse regrouping, 8 groups of 5 bits giving 5 bytes; a
final run of 2, 4, 5 or 7 groups gives 1, 2, 3 or 4 bytes; runs of 1, 3 or 6 groups
are not an encoding. -/
def base32Bytes : List Nat → Option (List Byte)
  | d0 :: d1 :: d2 :: d3 :: d4 :: d5 :: d6 :: d7 :: rest =>
    (base32Bytes rest).map fun tl =>
      lowByte (d0 * 8 + d1 / 4) :: lowByte (d1 * 64 + d2 * 2 + d3 / 16) ::
      lowByte (d3 * 16 + d4 / 2) :: lowByte (d4 * 128 + d5 * 4 + d6 / 8) ::
      lowByte (d6 * 32 + d7) :: tl
  | [d0, d1, d2, d3, d4, d5, d6] =>
    some [lowByte (d0 * 8 + d1 / 4), lowByte (d1 * 64 + d2 * 2 + d3 / 16),
      lowByte (d3 * 16 + d4 / 2), lowByte (d4 * 128 + d5 * 4 + d6 / 8)]
  | [d0, d1, d2, d3, d4] =>
    some [lowByte (d0 * 8 + d1 / 4), lowByte (d1 * 64 + d2 * 2 + d3 / 16),
      lowByte (d3 * 16 + d4 / 2)]
  | [d0, d1, d2, d3] =>
    some [lowByte (d0 * 8 + d1 / 4), lowByte (d1 * 64 + d2 * 2 + d3 / 16)]
  | [d0, d1] => some [lowByte (d0 * 8 + d1 / 4)]
  | [] => some []
  | _ => none

/-- Modelled from the spec: `multibase.Encode(multibase.Base32, data)` of `go-multibase`:
the multibase tag `b` followed by the unpadded lower-case base-32 text of `data`.
Base-32 is a supported encoding, so no error is returned. -/
def multibaseEncodeBase32 (data : List Byte) : Except GoError String :=
  .ok (String.mk ('b' :: (base32Groups data).map base32Char))

/-- Modelled from the spec: multibase decoding of a base-32 string: the tag `b` is checked
and removed and the rest is decoded; `none` for any other text. -/
def multibaseDecodeBase32 (s : String) : Option (List Byte) :=
  match s.data with
  | 'b' :: cs => (base32Values cs).bind base32Bytes
  | _ => none

/-- Source `bytesToCIDString`. -/
def bytesToCIDString (b : List Byte) : Except GoError String :=
  match multibaseEncodeBase32 b with
  | .error err => .error err
  | .ok ipfsCID => .ok ipfsCID

/-! ## Checkpoint store -/

/-- Modelled from the spec: the digit character `'0' + d` (Go standard library, not part
of the repository sources). -/
def digitByte (d : Nat) : Char :=
  Char.ofNat (48 + d)

/-- Modelled from the spec: the base-10 loop of the Go formatter behind
`fmt.Sprintf("%d", u)` for an unsigned `u`: digits are produced from the least
significant one and placed in front of what is already in the buffer. The loop
runs at most `u` times, which the first argument bounds. -/
def fmtIntegerLoop : Nat → Nat → List Char → List Char
  | 0, u, buf => digitByte u :: buf
  | fuel + 1, u, buf =>
    if u ≥ 10 then fmtIntegerLoop fuel (u / 10) (digitByte (u - u / 10 * 10) :: buf)
    else digitByte u :: buf

/-- Modelled from the spec: `fmt.Sprintf("%d", u)` for an unsigned 64-bit `u`. -/
def sprintfDecimal (u : Nat) : String :=
  String.mk (fmtIntegerLoop u u [])

/-- The syntax error of `strconv.ParseUint`. -/
def errSyntax : GoError := GoError.lib 1

/-- The range error of `strconv.ParseUint`. -/
def errRange : GoError := GoError.lib 2

/-- Modelled from the spec: the digit loop of `strconv.ParseUint(s, 10, 64)` (Go standard
library): a character that is no decimal digit is a syntax error; an accumulator
at or above the cutoff `maxUint64/10 + 1`, or an addition that wraps around, is a
range error. Arithmetic is that of `uint64`. -/
def parseUintLoop : List Char → Nat → Except GoError Nat
  | [], n => .ok n
  | c :: cs, n =>
    if '0' ≤ c ∧ c ≤ '9' then
      let d := c.toNat - 48
      if n ≥ (2 ^ 64 - 1) / 10 + 1 then .error errRange
      else
        let n10 := n * 10 % 2 ^ 64
        let n1 := (n10 + d) % 2 ^ 64
        if n1 < n10 ∨ n1 > 2 ^ 64 - 1 then .error errRange
        else parseUintLoop cs n1
    else .error errSyntax

/-- Modelled from the spec: `strconv.ParseUint(s, 10, 64)`; the empty string is a syntax
error. -/
def parseUint (s : String) : Except GoError Nat :=
  if s.data = [] then .error errSyntax else parseUintLoop s.data 0

/-- The files the program can see: for every path what `os.ReadFile` returns. -/
abbrev FileSystem := String → Except GoError String

/-- Modelled from the spec: `os.WriteFile(name, data, 0644)` of the Go standard library.
Whether the write fails is the environment's choice `failure`; a successful write
replaces the whole content of the file, a failed one is taken to leave the files as
they were. -/
def osWriteFile (fs : FileSystem) (name data : String) (failure : Option GoError) :
    FileSystem × Option GoError :=
  match failure with
  | some err => (fs, some err)
  | none => (fun p => if p = name then .ok data else fs p, none)

/-- Source `getLastProcessedBlock`. -/
def getLastProcessedBlock (fs : FileSystem) (filePath : String) : Except GoError Nat :=
  match fs filePath with
  | .error err => .error (GoError.unableToOpen filePath err)
  | .ok fileContents =>
    match parseUint fileContents with
    | .error err => .error (GoError.unableToDecode filePath err)
    | .ok lastBlock => .ok lastBlock

/-- Source `storeLastProcessedBlock`: the files afterwards and the returned error. -/
def storeLastProcessedBlock (fs : FileSystem) (filePath : String) (lastProcessedBlock : Nat)
    (failure : Option GoError) : FileSystem × Option GoError :=
  match osWriteFile fs filePath (sprintfDecimal lastProcessedBlock) failure with
  | (fs1, some err) => (fs1, some (GoError.unableToOpen filePath err))
  | (fs1, none) => (fs1, none)

/-! ## Scan loop -/

/-- What `ethClient.BlockByNumber` returned: `failed err` when `err != nil`, `noBlock`
for `(nil, nil)`, `found block` for a block and no error. -/
inductive FetchResult where
  | failed (err : GoError)
  | noBlock
  | found (block : Block)

/-- What the outside world answers during one pass of `BLOCKLOOP`: the fetch result, the
value of `time.Now().Unix()`, and the result of `ipfsClient.Pin().Add` for the
transaction at each index of the block (`none` being `nil`). -/
structure IterInput where
  fetch : FetchResult
  now : Int
  pinResult : Nat → Option GoError

/-- Calls the loop makes on its collaborators, in program order. `store v` is the call
`storeLastProcessedBlock(cfg.lastBlockPath, v)`. -/
inductive Event (Cid : Type) where
  | fetch (number : Int)
  | sleep (seconds : Nat)
  | pin (cid : Cid)
  | store (value : Nat)
  deriving DecidableEq, Repr

/-- Run-time panics of the Go program. -/
inductive Panic where
  | nilDereference
  | indexOutOfRange
  deriving DecidableEq, Repr

/-- How a pass of the loop ends: the loop goes on with `currentBlock` holding the given
value, `start` returns an error, or the program panics. -/
inductive Control where
  | next (currentBlock : Int)
  | exit (err : GoError)
  | panic (p : Panic)
  deriving DecidableEq, Repr

/-- Result of running a piece of `start`: how it ended and the calls it made. -/
structure LoopResult (Cid : Type) where
  control : Control
  events : List (Event Cid)
  deriving DecidableEq, Repr

/-- The same result with `evs` performed first. -/
def LoopResult.after {Cid : Type} (evs : List (Event Cid)) (r : LoopResult Cid) : LoopResult Cid :=
  { control := r.control, events := evs ++ r.events }

/-- The configuration `start` works with: `batcherFrom` and `batcherInbox` are
`common.HexToAddress` of the two configured addresses. -/
structure Config where
  batcherFrom : Address
  batcherInbox : Address
  startBlock : Nat
  lastBlockPath : String

/-- The block's timestamp test of the loop: `block.Time() > uint64(time.Now().Unix()-1800)`. -/
def tooRecent (block : Block) (now : Int) : Bool :=
  decide (block.time > toUint64 (now - 1800))

/-- Source `start`, the `for _, tx := range block.Transactions()` loop and the statement
after it, from the transaction at index `i` on. `cidFromBytes` is `cid.CidFromBytes`
of `go-cid`, a pure function of the bytes. Falling out of the loop adds one to
`currentBlock`; `continue BLOCKLOOP` leaves it as it is. -/
def processTxs {Cid : Type} (cidFromBytes : List Byte → Except GoError Cid) (cfg : Config)
    (currentBlock : Int) (inp : IterInput) : Nat → List Transaction → LoopResult Cid
  | _, [] => ⟨.next (currentBlock + 1), []⟩
  | i, tx :: rest =>
    match isValidBatcherTx tx cfg.batcherFrom cfg.batcherInbox with
    | (_, some err) => ⟨.exit err, []⟩
    | (false, none) => processTxs cidFromBytes cfg currentBlock inp (i + 1) rest
    | (true, none) =>
      match tx.data with
      | [] => ⟨.panic .indexOutOfRange, []⟩
      | pfx :: payload =>
        if pfx ≠ 0xfc then processTxs cidFromBytes cfg currentBlock inp (i + 1) rest
        else
          match bytesToCIDString payload with
          | .error _ => ⟨.next currentBlock, [.sleep 300]⟩
          | .ok _ =>
            match cidFromBytes payload with
            | .error err => ⟨.exit err, []⟩
            | .ok ipfsCid =>
              match inp.pinResult i with
              | some _ => ⟨.next currentBlock, [.pin ipfsCid, .sleep 10]⟩
              | none =>
                (processTxs cidFromBytes cfg currentBlock inp (i + 1) rest).after
                  [.pin ipfsCid, .store (bigUint64 currentBlock)]

/-- Source `start`, one pass of the body of `BLOCKLOOP` with `currentBlock` as given. -/
def blockLoopBody {Cid : Type} (cidFromBytes : List Byte → Except GoError Cid) (cfg : Config)
    (currentBlock : Int) (inp : IterInput) : LoopResult Cid :=
  LoopResult.after [.fetch currentBlock] <|
    match inp.fetch with
    | .failed _ => ⟨.next currentBlock, [.sleep 60]⟩
    | .noBlock => ⟨.panic .nilDereference, []⟩
    | .found block =>
      if tooRecent block inp.now then ⟨.next currentBlock, [.sleep 60]⟩
      else processTxs cidFromBytes cfg currentBlock inp 0 block.transactions

/-- Source `start`, the loop `BLOCKLOOP` run for as many passes as there are inputs, or
until it returns or panics. -/
def blockLoop {Cid : Type} (cidFromBytes : List Byte → Except GoError Cid) (cfg : Config) :
    Int → List IterInput → LoopResult Cid
  | currentBlock, [] => ⟨.next currentBlock, []⟩
  | currentBlock, inp :: rest =>
    match blockLoopBody cidFromBytes cfg currentBlock inp with
    | ⟨.next c, evs⟩ => (blockLoop cidFromBytes cfg c rest).after evs
    | r => r

/-- The value `currentBlock` has when `BLOCKLOOP` is entered: `big.NewInt(int64(...))` of
the stored height, or of `cfg.startBlock` when the checkpoint cannot be read. -/
def initialBlock (cfg : Config) (fs : FileSystem) : Int :=
  match getLastProcessedBlock fs cfg.lastBlockPath with
  | .error _ => toInt64 cfg.startBlock
  | .ok storedBlock => toInt64 storedBlock

/-- Source `start`. `connect` is the error, if any, of parsing the RPC url or of creating
one of the two clients. -/
def start {Cid : Type} (cidFromBytes : List Byte → Except GoError Cid) (cfg : Config)
    (fs : FileSystem) (connect : Option GoError) (inputs : List IterInput) : LoopResult Cid :=
  match connect with
  | some err => ⟨.exit err, []⟩
  | none => blockLoop cidFromBytes cfg (initialBlock cfg fs) inputs

/-- A transaction qualifies when the validator answers `(true, nil)`. -/
def qualifies (cfg : Config) (tx : Transaction) : Prop :=
  isValidBatcherTx tx cfg.batcherFrom cfg.batcherInbox = (true, none)

instance (cfg : Config) (tx : Transaction) : Decidable (qualifies cfg tx) :=
  inferInstanceAs (Decidable (_ = _))

/-- The calls the happy path is expected to make for a block at height `H`: for each
qualifying transaction whose payload starts with `0xFC` and whose remainder parses to
a content identifier, in block order, one pin request followed by one checkpoint
write of `H`. -/
def pinEvents {Cid : Type} (cidFromBytes : List Byte → Except GoError Cid) (cfg : Config)
    (H : Nat) : List Transaction → List (Event Cid)
  | [] => []
  | tx :: rest =>
    (if qualifies cfg tx then
      match tx.data with
      | [] => []
      | pfx :: payload =>
        if pfx = 0xfc then
          match cidFromBytes payload with
          | .ok c => [.pin c, .store H]
          | .error _ => []
        else []
    else []) ++ pinEvents cidFromBytes cfg H rest

/-- The values written to the checkpoint, in the order of the calls. -/
def storedValues {Cid : Type} : List (Event Cid) → List Nat
  | [] => []
  | .store v :: evs => v :: storedValues evs
  | .fetch _ :: evs => storedValues evs
  | .sleep _ :: evs => storedValues evs
  | .pin _ :: evs => storedValues evs

/-! ## Concrete inputs used by the examples -/

/-- The default configuration of `main`. -/
def sampleCfg : Config :=
  { batcherFrom := 0x6017f75108f251a488B045A7ce2a7C15b179d1f2
    batcherInbox := 0xfF000000000000000000000000000000000420fC
    startBlock := 19135636
    lastBlockPath := "./last-block" }

/-- A stand-in for `cid.CidFromBytes` in the examples: fewer than two bytes are rejected,
any other sequence is its own identifier. -/
def sampleCid (b : List Byte) : Except GoError (List Byte) :=
  if b.length < 2 then .error (GoError.lib 3) else .ok b

/-- A batcher transaction to the inbox carrying the tag `0xFC` and three more bytes. -/
def txTagged : Transaction :=
  { recipient := some sampleCfg.batcherInbox, sender := .ok sampleCfg.batcherFrom,
    data := [0xfc, 0x01, 0x55, 0x12] }

/-- A batcher transaction to the inbox whose first payload byte is `0xFD`. -/
def txUntagged : Transaction :=
  { recipient := some sampleCfg.batcherInbox, sender := .ok sampleCfg.batcherFrom,
    data := [0xfd, 0x01, 0x55, 0x12] }

/-- A batcher transaction to the inbox with an empty payload. -/
def txEmpty : Transaction :=
  { recipient := some sampleCfg.batcherInbox, sender := .ok sampleCfg.batcherFrom, data := [] }

/-- A batcher transaction to the inbox carrying the tag `0xFC` and the bytes
`01 55 00 01 61` of a version-1 content identifier. -/
def txRawCid : Transaction :=
  { recipient := some sampleCfg.batcherInbox, sender := .ok sampleCfg.batcherFrom,
    data := [0xfc, 0x01, 0x55, 0x00, 0x01, 0x61] }

/-- A transaction to the inbox whose sender cannot be recovered. -/
def txUnrecoverable : Transaction :=
  { recipient := some sampleCfg.batcherInbox, sender := .error (GoError.lib 4),
    data := [0xfd, 0x01] }

/-- A transaction between two other accounts. -/
def txForeign : Transaction :=
  { recipient := some 1, sender := .ok 2, data := [0xfc, 0x01, 0x55, 0x12] }

/-- A pass at wall-clock time 1700000000 that fetches a block with timestamp 1600000000
holding `txs`, every pin request succeeding. -/
def passWith (txs : List Transaction) : IterInput :=
  { fetch := .found { time := 1600000000, transactions := txs }
    now := 1700000000
    pinResult := fun _ => none }

/-- The same pass with the pin request at index 1 failing. -/
def passPinFails (txs : List Transaction) : IterInput :=
  { fetch := .found { time := 1600000000, transactions := txs }
    now := 1700000000
    pinResult := fun i => if i = 1 then some (GoError.lib 5) else none }

/-- A file system whose checkpoint file holds the given text. -/
def filesWith (text : String) : FileSystem :=
  fun p => if p = "./last-block" then .ok text else .error (GoError.lib 6)

/-! ## Theorems -/

/-- C1: `isValidBatcherTx tx batcher inbox` is `(true, nil)` exactly when the transaction
has a recipient, the recipient is `inbox`, sender recovery succeeds and the recovered
sender is `batcher`; and when the recipient is absent or differs from `inbox` the
result is `(false, nil)`, whatever sender recovery gives. -/
theorem isValidBatcherTx_spec (tx : Transaction) (batcher inbox : Address) :
    (isValidBatcherTx tx batcher inbox = (true, none) ↔
      tx.recipient = some inbox ∧ getFromAddress tx = .ok batcher) ∧
    ((tx.recipient = none ∨ ∃ rcpt, tx.recipient = some rcpt ∧ rcpt ≠ inbox) →
      isValidBatcherTx tx batcher inbox = (false, none)) := by
  obtain ⟨rc, sender, data⟩ := tx
  constructor
  · cases rc with
    | none => simp [isValidBatcherTx]
    | some t =>
      by_cases ht : t = inbox
      · cases sender with
        | error e => simp [isValidBatcherTx, getFromAddress, ht]
        | ok f =>
          by_cases hf : f = batcher <;> simp [isValidBatcherTx, getFromAddress, ht, hf]
      · simp [isValidBatcherTx, ht]
  · rintro (h | ⟨t, h, hne⟩)
    · simp only at h
      simp [isValidBatcherTx, h]
    · simp only at h
      simp [isValidBatcherTx, h, hne]


theorem base32Value_base32Char : ∀ v, v < 32 → base32Value (base32Char v) = some v := by
  decide

theorem base32Groups_lt (b : List Byte) : ∀ v ∈ base32Groups b, v < 32 := by
  induction b using base32Groups.induct with
  | case1 s0 s1 s2 s3 s4 rest ih =>
    intro v hv
    simp only [base32Groups, List.mem_cons] at hv
    have h0 := s0.isLt; have h1 := s1.isLt; have h2 := s2.isLt
    have h3 := s3.isLt; have h4 := s4.isLt
    rcases hv with h | h | h | h | h | h | h | h | h
    all_goals first | exact ih v h | omega
  | case2 s0 s1 s2 s3 =>
    intro v hv
    simp only [base32Groups, List.mem_cons, List.not_mem_nil, or_false] at hv
    have h0 := s0.isLt; have h1 := s1.isLt; have h2 := s2.isLt; have h3 := s3.isLt
    rcases hv with h | h | h | h | h | h | h <;> omega
  | case3 s0 s1 s2 =>
    intro v hv
    simp only [base32Groups, List.mem_cons, List.not_mem_nil, or_false] at hv
    have h0 := s0.isLt; have h1 := s1.isLt; have h2 := s2.isLt
    rcases hv with h | h | h | h | h <;> omega
  | case4 s0 s1 =>
    intro v hv
    simp only [base32Groups, List.mem_cons, List.not_mem_nil, or_false] at hv
    have h0 := s0.isLt; have h1 := s1.isLt
    rcases hv with h | h | h | h <;> omega
  | case5 s0 =>
    intro v hv
    simp only [base32Groups, List.mem_cons, List.not_mem_nil, or_false] at hv
    have h0 := s0.isLt
    rcases hv with h | h <;> omega
  | case6 => simp [base32Groups]

theorem base32Values_map (l : List Nat) (h : ∀ v ∈ l, v < 32) :
    base32Values (l.map base32Char) = some l := by
  induction l with
  | nil => rfl
  | cons v tl ih =>
    have hv : v < 32 := h v (List.mem_cons_self v tl)
    have htl : ∀ w ∈ tl, w < 32 := fun w hw => h w (List.mem_cons_of_mem v hw)
    simp [base32Values, base32Value_base32Char v hv, ih htl]

theorem base32Bytes_base32Groups (b : List Byte) : base32Bytes (base32Groups b) = some b := by
  induction b using base32Groups.induct with
  | case1 s0 s1 s2 s3 s4 rest ih =>
    have h0 := s0.isLt; have h1 := s1.isLt; have h2 := s2.isLt
    have h3 := s3.isLt; have h4 := s4.isLt
    simp only [base32Groups, base32Bytes, ih, Option.map_some', lowByte, Option.some.injEq,
      List.cons.injEq, and_true]
    refine ⟨?_, ?_, ?_, ?_, ?_⟩ <;> apply Fin.ext <;> simp only <;> omega
  | case2 s0 s1 s2 s3 =>
    have h0 := s0.isLt; have h1 := s1.isLt; have h2 := s2.isLt; have h3 := s3.isLt
    simp only [base32Groups, base32Bytes, lowByte, Option.some.injEq, List.cons.injEq, and_true]
    refine ⟨?_, ?_, ?_, ?_⟩ <;> apply Fin.ext <;> simp only <;> omega
  | case3 s0 s1 s2 =>
    have h0 := s0.isLt; have h1 := s1.isLt; have h2 := s2.isLt
    simp only [base32Groups, base32Bytes, lowByte, Option.some.injEq, List.cons.injEq, and_true]
    refine ⟨?_, ?_, ?_⟩ <;> apply Fin.ext <;> simp only <;> omega
  | case4 s0 s1 =>
    have h0 := s0.isLt; have h1 := s1.isLt
    simp only [base32Groups, base32Bytes, lowByte, Option.some.injEq, List.cons.injEq, and_true]
    refine ⟨?_, ?_⟩ <;> apply Fin.ext <;> simp only <;> omega
  | case5 s0 =>
    have h0 := s0.isLt
    simp only [base32Groups, base32Bytes, lowByte, Option.some.injEq, List.cons.injEq, and_true]
    apply Fin.ext; simp only; omega
  | case6 => simp [base32Groups, base32Bytes]

/-- C3: for every byte sequence `b`, `bytesToCIDString b` succeeds, the string it returns
starts with the multibase tag `b` of base-32, and multibase decoding of that string
gives back exactly `b`. -/
theorem bytesToCIDString_roundtrip (b : List Byte) :
    ∃ s, bytesToCIDString b = .ok s ∧ s.data.head? = some 'b' ∧
      multibaseDecodeBase32 s = some b := by
  refine ⟨String.mk ('b' :: (base32Groups b).map base32Char), rfl, rfl, ?_⟩
  simp only [multibaseDecodeBase32, base32Values_map _ (base32Groups_lt b),
    Option.some_bind, base32Bytes_base32Groups]

theorem digitByte_isDigit : ∀ d, d < 10 →
    ('0' ≤ digitByte d ∧ digitByte d ≤ '9') ∧ (digitByte d).toNat - 48 = d := by
  decide

theorem digitByte_eq_digitChar : ∀ d, d < 10 → digitByte d = Nat.digitChar d := by
  decide

theorem fmtIntegerLoop_eq_toDigitsCore (fuel : Nat) :
    ∀ u buf, u ≤ fuel → fmtIntegerLoop fuel u buf = Nat.toDigitsCore 10 (fuel + 1) u buf := by
  induction fuel with
  | zero =>
    intro u buf hu
    have h0 : u = 0 := by omega
    subst h0
    rfl
  | succ fuel ih =>
    intro u buf hu
    by_cases h10 : u ≥ 10
    · have hne : u / 10 ≠ 0 := by omega
      have hle : u / 10 ≤ fuel := by omega
      have hd : u - u / 10 * 10 = u % 10 := by omega
      rw [fmtIntegerLoop, if_pos h10, ih _ _ hle, hd,
        digitByte_eq_digitChar _ (Nat.mod_lt u (by decide))]
      conv_rhs => rw [Nat.toDigitsCore]
      simp only [hne, if_false]
    · have hz : u / 10 = 0 := by omega
      have hm : u % 10 = u := by omega
      rw [fmtIntegerLoop, if_neg h10, digitByte_eq_digitChar _ (by omega)]
      conv_rhs => rw [Nat.toDigitsCore]
      simp only [hz, hm, if_true]

theorem sprintfDecimal_eq_repr (u : Nat) : sprintfDecimal u = toString u := by
  show String.mk (fmtIntegerLoop u u []) = Nat.repr u
  rw [fmtIntegerLoop_eq_toDigitsCore u u [] (Nat.le_refl u)]
  rfl

theorem parseUintLoop_digit (d n : Nat) (cs : List Char) (hd : d < 10)
    (hn : n * 10 + d < 2 ^ 64) :
    parseUintLoop (digitByte d :: cs) n = parseUintLoop cs (n * 10 + d) := by
  obtain ⟨hdig, hval⟩ := digitByte_isDigit d hd
  have h1 : ¬ n ≥ (2 ^ 64 - 1) / 10 + 1 := by omega
  have h2 : n * 10 % 2 ^ 64 = n * 10 := Nat.mod_eq_of_lt (by omega)
  have h3 : (n * 10 + d) % 2 ^ 64 = n * 10 + d := Nat.mod_eq_of_lt hn
  have h4 : ¬ (n * 10 + d < n * 10 ∨ n * 10 + d > 2 ^ 64 - 1) := by omega
  simp only [parseUintLoop, hdig, and_self, if_true, hval, h1, if_false, h2, h3, h4]

theorem parseUintLoop_fmtIntegerLoop (fuel : Nat) :
    ∀ u buf, u ≤ fuel → u < 2 ^ 64 →
      parseUintLoop (fmtIntegerLoop fuel u buf) 0 = parseUintLoop buf u := by
  induction fuel with
  | zero =>
    intro u buf hu _
    have h0 : u = 0 := by omega
    subst h0
    rw [fmtIntegerLoop, parseUintLoop_digit 0 0 buf (by decide) (by decide)]
  | succ fuel ih =>
    intro u buf hu hlt
    by_cases h10 : u ≥ 10
    · have hd : u - u / 10 * 10 = u % 10 := by omega
      rw [fmtIntegerLoop, if_pos h10, ih _ _ (by omega) (by omega), hd,
        parseUintLoop_digit (u % 10) (u / 10) buf (Nat.mod_lt u (by decide)) (by omega)]
      congr 1
      omega
    · rw [fmtIntegerLoop, if_neg h10, parseUintLoop_digit u 0 buf (by omega) (by omega)]
      congr 1
      omega

theorem fmtIntegerLoop_ne_nil (fuel u : Nat) (buf : List Char) :
    fmtIntegerLoop fuel u buf ≠ [] := by
  induction fuel generalizing u buf with
  | zero => simp [fmtIntegerLoop]
  | succ fuel ih =>
    rw [fmtIntegerLoop]
    split
    · exact ih _ _
    · simp

theorem parseUint_sprintfDecimal (u : Nat) (hu : u < 2 ^ 64) :
    parseUint (sprintfDecimal u) = .ok u := by
  rw [parseUint, sprintfDecimal]
  simp only [fmtIntegerLoop_ne_nil, if_false]
  rw [parseUintLoop_fmtIntegerLoop u u [] (Nat.le_refl u) hu]
  rfl

/-- C4: for every unsigned 64-bit height `h`, a `storeLastProcessedBlock` whose write
succeeds returns no error and leaves in the file exactly the plain decimal text of
`h`, and `getLastProcessedBlock` on that file returns `h` without error. -/
theorem checkpoint_roundtrip (fs : FileSystem) (filePath : String) (h : Nat)
    (hh : h < 2 ^ 64) :
    (storeLastProcessedBlock fs filePath h none).2 = none ∧
    (storeLastProcessedBlock fs filePath h none).1 filePath = .ok (toString h) ∧
    getLastProcessedBlock (storeLastProcessedBlock fs filePath h none).1 filePath = .ok h := by
  have hstore : storeLastProcessedBlock fs filePath h none =
      (fun p => if p = filePath then .ok (sprintfDecimal h) else fs p, none) := rfl
  rw [hstore]
  refine ⟨rfl, ?_, ?_⟩
  · simp only [if_true, sprintfDecimal_eq_repr]
  · simp only [getLastProcessedBlock, if_true, parseUint_sprintfDecimal h hh]

/-- Witness of `checkpoint_roundtrip`: height 19135636 written to `./last-block`. -/
theorem checkpoint_roundtrip_witness :
    19135636 < 2 ^ 64 ∧
    (storeLastProcessedBlock (fun _ => .error (GoError.lib 0)) "./last-block" 19135636 none).2
      = none ∧
    (storeLastProcessedBlock (fun _ => .error (GoError.lib 0)) "./last-block" 19135636 none).1
      "./last-block" = .ok (toString 19135636) ∧
    getLastProcessedBlock
      (storeLastProcessedBlock (fun _ => .error (GoError.lib 0)) "./last-block" 19135636 none).1
      "./last-block" = .ok 19135636 :=
  ⟨by decide,
    checkpoint_roundtrip (fun _ => .error (GoError.lib 0)) "./last-block" 19135636 (by decide)⟩


section Loop

variable {Cid : Type} (cidFromBytes : List Byte → Except GoError Cid) (cfg : Config)
  (currentBlock : Int) (inp : IterInput)

theorem bytesToCIDString_ok (b : List Byte) :
    bytesToCIDString b = .ok (String.mk ('b' :: (base32Groups b).map base32Char)) := rfl

theorem processTxs_cons_skip (i : Nat) (tx : Transaction) (rest : List Transaction)
    (h : isValidBatcherTx tx cfg.batcherFrom cfg.batcherInbox = (false, none)) :
    processTxs cidFromBytes cfg currentBlock inp i (tx :: rest) =
      processTxs cidFromBytes cfg currentBlock inp (i + 1) rest := by
  rw [processTxs]; simp only [h]

theorem processTxs_cons_err (i : Nat) (tx : Transaction) (rest : List Transaction) (b : Bool)
    (err : GoError) (h : isValidBatcherTx tx cfg.batcherFrom cfg.batcherInbox = (b, some err)) :
    processTxs cidFromBytes cfg currentBlock inp i (tx :: rest) = ⟨.exit err, []⟩ := by
  rw [processTxs]; simp only [h]

theorem processTxs_cons_empty (i : Nat) (tx : Transaction) (rest : List Transaction)
    (h : qualifies cfg tx) (hd : tx.data = []) :
    processTxs cidFromBytes cfg currentBlock inp i (tx :: rest) =
      ⟨.panic .indexOutOfRange, []⟩ := by
  rw [processTxs]; simp only [show isValidBatcherTx _ _ _ = _ from h, hd]

theorem processTxs_cons_untagged (i : Nat) (tx : Transaction) (rest : List Transaction)
    (pfx : Byte) (payload : List Byte)
    (h : qualifies cfg tx) (hd : tx.data = pfx :: payload) (hp : pfx ≠ 0xfc) :
    processTxs cidFromBytes cfg currentBlock inp i (tx :: rest) =
      processTxs cidFromBytes cfg currentBlock inp (i + 1) rest := by
  rw [processTxs]; simp only [show isValidBatcherTx _ _ _ = _ from h, hd, hp, ne_eq,
    not_false_eq_true, if_true]

theorem processTxs_cons_badCid (i : Nat) (tx : Transaction) (rest : List Transaction)
    (payload : List Byte) (err : GoError)
    (h : qualifies cfg tx) (hd : tx.data = 0xfc :: payload)
    (hc : cidFromBytes payload = .error err) :
    processTxs cidFromBytes cfg currentBlock inp i (tx :: rest) = ⟨.exit err, []⟩ := by
  rw [processTxs]; simp only [show isValidBatcherTx _ _ _ = _ from h, hd, ne_eq,
    not_true_eq_false, if_false, bytesToCIDString_ok, hc]

theorem processTxs_cons_pinFailed (i : Nat) (tx : Transaction) (rest : List Transaction)
    (payload : List Byte) (c : Cid) (err : GoError)
    (h : qualifies cfg tx) (hd : tx.data = 0xfc :: payload)
    (hc : cidFromBytes payload = .ok c) (hpin : inp.pinResult i = some err) :
    processTxs cidFromBytes cfg currentBlock inp i (tx :: rest) =
      ⟨.next currentBlock, [.pin c, .sleep 10]⟩ := by
  rw [processTxs]; simp only [show isValidBatcherTx _ _ _ = _ from h, hd, ne_eq,
    not_true_eq_false, if_false, bytesToCIDString_ok, hc, hpin]

theorem processTxs_cons_pinned (i : Nat) (tx : Transaction) (rest : List Transaction)
    (payload : List Byte) (c : Cid)
    (h : qualifies cfg tx) (hd : tx.data = 0xfc :: payload)
    (hc : cidFromBytes payload = .ok c) (hpin : inp.pinResult i = none) :
    processTxs cidFromBytes cfg currentBlock inp i (tx :: rest) =
      (processTxs cidFromBytes cfg currentBlock inp (i + 1) rest).after
        [.pin c, .store (bigUint64 currentBlock)] := by
  rw [processTxs]; simp only [show isValidBatcherTx _ _ _ = _ from h, hd, ne_eq,
    not_true_eq_false, if_false, bytesToCIDString_ok, hc, hpin]

/-- The three possible answers of the validator. -/
theorem isValidBatcherTx_cases (tx : Transaction) (batcher inbox : Address) :
    isValidBatcherTx tx batcher inbox = (true, none) ∨
    isValidBatcherTx tx batcher inbox = (false, none) ∨
    ∃ e, isValidBatcherTx tx batcher inbox = (false, some (GoError.cannotDecodeFrom e)) ∧
      tx.recipient = some inbox ∧ getFromAddress tx = .error e := by
  obtain ⟨rc, sender, data⟩ := tx
  cases rc with
  | none => simp [isValidBatcherTx]
  | some t =>
    by_cases ht : t = inbox
    · cases sender with
      | error e => simp [isValidBatcherTx, getFromAddress, ht]
      | ok f => by_cases hf : f = batcher <;> simp [isValidBatcherTx, getFromAddress, ht, hf]
    · simp [isValidBatcherTx, ht]

/-- When no transaction addressed to the inbox fails sender recovery and every qualifying
transaction carries a first payload byte other than `0xFC`, the transaction loop runs
to its end without any call to a collaborator. -/
theorem processTxs_untagged (txs : List Transaction) :
    ∀ i : Nat,
      (∀ tx ∈ txs, tx.recipient = some cfg.batcherInbox → ∃ a, getFromAddress tx = .ok a) →
      (∀ tx ∈ txs, qualifies cfg tx → ∃ pfx payload, tx.data = pfx :: payload ∧ pfx ≠ 0xfc) →
      processTxs cidFromBytes cfg currentBlock inp i txs = ⟨.next (currentBlock + 1), []⟩ := by
  induction txs with
  | nil => intro i _ _; rfl
  | cons tx rest ih =>
    intro i hrec htag
    have hrest := ih (i + 1)
      (fun t ht => hrec t (List.mem_cons_of_mem tx ht))
      (fun t ht => htag t (List.mem_cons_of_mem tx ht))
    rcases isValidBatcherTx_cases tx cfg.batcherFrom cfg.batcherInbox with hv | hv | ⟨e, _, hto, hfrom⟩
    · obtain ⟨pfx, payload, hd, hp⟩ := htag tx (List.mem_cons_self tx rest) hv
      rw [processTxs_cons_untagged cidFromBytes cfg currentBlock inp i tx rest pfx payload hv hd hp]
      exact hrest
    · rw [processTxs_cons_skip cidFromBytes cfg currentBlock inp i tx rest hv]
      exact hrest
    · obtain ⟨a, ha⟩ := hrec tx (List.mem_cons_self tx rest) hto
      rw [ha] at hfrom
      cases hfrom

/-- C2 (amended): for every block fetched at height `H` that is not inside the 30-minute
margin, in which no transaction addressed to the inbox fails sender recovery and every
qualifying transaction has a first payload byte different from `0xFC`, one pass of
the loop only fetches the block: no pin, no checkpoint write, no sleep, and the
cursor becomes `H + 1`. -/
theorem untagged_block_advances (H : Int) (block : Block)
    (hfetch : inp.fetch = .found block) (hold : tooRecent block inp.now = false)
    (hrec : ∀ tx ∈ block.transactions,
      tx.recipient = some cfg.batcherInbox → ∃ a, getFromAddress tx = .ok a)
    (htag : ∀ tx ∈ block.transactions,
      qualifies cfg tx → ∃ pfx payload, tx.data = pfx :: payload ∧ pfx ≠ 0xfc) :
    blockLoopBody cidFromBytes cfg H inp = ⟨.next (H + 1), [.fetch H]⟩ := by
  simp only [blockLoopBody, hfetch, hold, Bool.false_eq_true, if_false,
    processTxs_untagged cidFromBytes cfg H inp block.transactions 0 hrec htag]
  rfl

/-- A pass whose fetch returns an error, or whose fetched block passes the timestamp test
of the program, `block.Time() > uint64(now - 1800)`, ends with the cursor still `H`,
after the fetch and a sleep of 60 seconds and nothing else; the loop goes on with a
pass at the same `H`. -/
theorem retry_on_error_or_recent (H : Int) (rest : List IterInput)
    (h : (∃ err, inp.fetch = .failed err) ∨
      ∃ block, inp.fetch = .found block ∧ block.time > toUint64 (inp.now - 1800)) :
    blockLoopBody cidFromBytes cfg H inp = ⟨.next H, [.fetch H, .sleep 60]⟩ ∧
    blockLoop cidFromBytes cfg H (inp :: rest) =
      (blockLoop cidFromBytes cfg H rest).after [.fetch H, .sleep 60] := by
  have hbody : blockLoopBody cidFromBytes cfg H inp = ⟨.next H, [.fetch H, .sleep 60]⟩ := by
    rcases h with ⟨err, hf⟩ | ⟨block, hf, ht⟩
    · simp only [blockLoopBody, hf]; rfl
    · have hrecent : tooRecent block inp.now = true := by
        simp only [tooRecent, decide_eq_true_eq]; exact ht
      simp only [blockLoopBody, hf, hrecent, if_true]; rfl
  refine ⟨hbody, ?_⟩
  rw [blockLoop, hbody]

theorem bigUint64_natCast (H : Nat) (hH : H < 2 ^ 64) : bigUint64 (H : Int) = H := by
  simp only [bigUint64, Int.natAbs_ofNat]
  exact Nat.mod_eq_of_lt hH

theorem LoopResult.after_mk (evs evs2 : List (Event Cid)) (c : Control) :
    (LoopResult.mk c evs2).after evs = ⟨c, evs ++ evs2⟩ := rfl

theorem processTxs_happy (H : Nat) (hH : H < 2 ^ 64) (txs : List Transaction) :
    ∀ i : Nat,
      (∀ tx ∈ txs, tx.recipient = some cfg.batcherInbox → ∃ a, getFromAddress tx = .ok a) →
      (∀ tx ∈ txs, qualifies cfg tx → tx.data ≠ []) →
      (∀ j tx, txs[j]? = some tx → qualifies cfg tx → ∀ payload, tx.data = 0xfc :: payload →
        (∃ c, cidFromBytes payload = .ok c) ∧ inp.pinResult (i + j) = none) →
      processTxs cidFromBytes cfg (H : Int) inp i txs =
        ⟨.next ((H : Int) + 1), pinEvents cidFromBytes cfg H txs⟩ := by
  induction txs with
  | nil => intro i _ _ _; rfl
  | cons tx rest ih =>
    intro i hrec hne hgood
    have hrest := ih (i + 1)
      (fun t ht => hrec t (List.mem_cons_of_mem tx ht))
      (fun t ht => hne t (List.mem_cons_of_mem tx ht))
      (fun j t hj hq payload hd => by
        have := hgood (j + 1) t (by simpa using hj) hq payload hd
        rwa [show i + (j + 1) = i + 1 + j by omega] at this)
    rcases isValidBatcherTx_cases tx cfg.batcherFrom cfg.batcherInbox with hv | hv | ⟨e, _, hto, hfrom⟩
    · have hq : qualifies cfg tx := hv
      cases hd : tx.data with
      | nil => exact absurd hd (hne tx (List.mem_cons_self tx rest) hq)
      | cons pfx payload =>
        by_cases hp : pfx = 0xfc
        · subst hp
          obtain ⟨⟨c, hc⟩, hpin⟩ := hgood 0 tx (by simp) hq payload hd
          rw [processTxs_cons_pinned cidFromBytes cfg (H : Int) inp i tx rest payload c hq hd hc
            hpin, hrest, bigUint64_natCast H hH]
          simp only [pinEvents, hq, if_true, hd, hc, LoopResult.after_mk]
        · rw [processTxs_cons_untagged cidFromBytes cfg (H : Int) inp i tx rest pfx payload hq hd hp,
            hrest]
          simp only [pinEvents, hq, if_true, hd, hp, if_false, List.nil_append]
    · rw [processTxs_cons_skip cidFromBytes cfg (H : Int) inp i tx rest hv, hrest]
      have hq : ¬ qualifies cfg tx := by
        intro hq; rw [show isValidBatcherTx _ _ _ = _ from hq] at hv; cases hv
      simp only [pinEvents, hq, if_false, List.nil_append]
    · obtain ⟨a, ha⟩ := hrec tx (List.mem_cons_self tx rest) hto
      rw [ha] at hfrom
      cases hfrom

/-- C6 (amended): for every height `H` below `2^64` and every block fetched there that is
not inside the 30-minute margin, in which no transaction addressed to the inbox fails
sender recovery, every qualifying transaction has a non-empty payload, and every
qualifying transaction tagged `0xFC` parses to a content identifier and is pinned
successfully, one pass issues, after the fetch, exactly one pin request per such
transaction in block order, each followed by a checkpoint write of `H`, and the
cursor becomes `H + 1`. -/
theorem happy_path (H : Nat) (hH : H < 2 ^ 64) (block : Block)
    (hfetch : inp.fetch = .found block) (hold : tooRecent block inp.now = false)
    (hrec : ∀ tx ∈ block.transactions,
      tx.recipient = some cfg.batcherInbox → ∃ a, getFromAddress tx = .ok a)
    (hne : ∀ tx ∈ block.transactions, qualifies cfg tx → tx.data ≠ [])
    (hgood : ∀ j tx, block.transactions[j]? = some tx → qualifies cfg tx →
      ∀ payload, tx.data = 0xfc :: payload →
        (∃ c, cidFromBytes payload = .ok c) ∧ inp.pinResult j = none) :
    blockLoopBody cidFromBytes cfg (H : Int) inp =
      ⟨.next ((H : Int) + 1), .fetch (H : Int) :: pinEvents cidFromBytes cfg H block.transactions⟩ := by
  have hgood0 : ∀ j tx, block.transactions[j]? = some tx → qualifies cfg tx →
      ∀ payload, tx.data = 0xfc :: payload →
        (∃ c, cidFromBytes payload = .ok c) ∧ inp.pinResult (0 + j) = none := by
    intro j tx hj hq payload hd
    rw [Nat.zero_add]
    exact hgood j tx hj hq payload hd
  simp only [blockLoopBody, hfetch, hold, Bool.false_eq_true, if_false,
    processTxs_happy cidFromBytes cfg inp H hH block.transactions 0 hrec hne hgood0]
  rfl

theorem LoopResult.after_control (evs : List (Event Cid)) (r : LoopResult Cid) :
    (r.after evs).control = r.control := rfl

theorem LoopResult.after_events (evs : List (Event Cid)) (r : LoopResult Cid) :
    (r.after evs).events = evs ++ r.events := rfl

theorem LoopResult.after_after (evs evs2 : List (Event Cid)) (r : LoopResult Cid) :
    (r.after evs2).after evs = r.after (evs ++ evs2) := by
  simp only [LoopResult.after, List.append_assoc]

theorem LoopResult.after_nil (r : LoopResult Cid) : r.after [] = r := rfl

/-- When the transactions `pre` are processed to the end, processing `pre ++ l` makes the
same calls and then goes on with `l` at index `i + pre.length`. -/
theorem processTxs_append (pre l : List Transaction) :
    ∀ i : Nat,
      (processTxs cidFromBytes cfg currentBlock inp i pre).control = .next (currentBlock + 1) →
      processTxs cidFromBytes cfg currentBlock inp i (pre ++ l) =
        (processTxs cidFromBytes cfg currentBlock inp (i + pre.length) l).after
          (processTxs cidFromBytes cfg currentBlock inp i pre).events := by
  have hne : Control.next currentBlock ≠ Control.next (currentBlock + 1) := by
    intro h; injection h with h; omega
  induction pre with
  | nil => intro i _; simp only [List.nil_append, List.length_nil, Nat.add_zero]; rfl
  | cons tx rest ih =>
    intro i hdone
    have hidx : i + (tx :: rest).length = i + 1 + rest.length := by
      simp only [List.length_cons]; omega
    rw [List.cons_append, hidx]
    rcases isValidBatcherTx_cases tx cfg.batcherFrom cfg.batcherInbox with hv | hv | ⟨e, hv, _, _⟩
    · have hq : qualifies cfg tx := hv
      cases hd : tx.data with
      | nil =>
        rw [processTxs_cons_empty cidFromBytes cfg currentBlock inp i tx rest hq hd] at hdone
        cases hdone
      | cons pfx payload =>
        by_cases hp : pfx = 0xfc
        · subst hp
          cases hc : cidFromBytes payload with
          | error err =>
            rw [processTxs_cons_badCid cidFromBytes cfg currentBlock inp i tx rest payload err hq
              hd hc] at hdone
            cases hdone
          | ok c =>
            cases hpin : inp.pinResult i with
            | some err =>
              rw [processTxs_cons_pinFailed cidFromBytes cfg currentBlock inp i tx rest payload c
                err hq hd hc hpin] at hdone
              exact absurd hdone hne
            | none =>
              rw [processTxs_cons_pinned cidFromBytes cfg currentBlock inp i tx rest payload c hq
                hd hc hpin] at hdone ⊢
              rw [processTxs_cons_pinned cidFromBytes cfg currentBlock inp i tx (rest ++ l) payload
                c hq hd hc hpin, ih (i + 1) hdone, LoopResult.after_after,
                LoopResult.after_events]
        · rw [processTxs_cons_untagged cidFromBytes cfg currentBlock inp i tx rest pfx payload hq
            hd hp] at hdone ⊢
          rw [processTxs_cons_untagged cidFromBytes cfg currentBlock inp i tx (rest ++ l) pfx
            payload hq hd hp, ih (i + 1) hdone]
    · rw [processTxs_cons_skip cidFromBytes cfg currentBlock inp i tx rest hv] at hdone ⊢
      rw [processTxs_cons_skip cidFromBytes cfg currentBlock inp i tx (rest ++ l) hv,
        ih (i + 1) hdone]
    · rw [processTxs_cons_err cidFromBytes cfg currentBlock inp i tx rest false _ hv] at hdone
      cases hdone

/-- Processing a list of transactions depends on the pin results only at the indices of
that list. -/
theorem processTxs_congr (inp2 : IterInput) (txs : List Transaction) :
    ∀ i : Nat, (∀ j, j < txs.length → inp2.pinResult (i + j) = inp.pinResult (i + j)) →
      processTxs cidFromBytes cfg currentBlock inp2 i txs =
        processTxs cidFromBytes cfg currentBlock inp i txs := by
  induction txs with
  | nil => intro i _; rfl
  | cons tx rest ih =>
    intro i h
    have h0 : inp2.pinResult i = inp.pinResult i := by
      have := h 0 (by simp)
      simpa using this
    have hrest := ih (i + 1) (fun j hj => by
      have := h (j + 1) (by simpa using hj)
      rwa [show i + (j + 1) = i + 1 + j by omega] at this)
    rw [processTxs, processTxs, h0, hrest]

/-- C8: let the transactions before index `i` of the block fetched at `H` be processed to
the end, and let the transaction at index `i` qualify, be tagged `0xFC`, parse to a
content identifier `c`, and its pin request fail. Then the pass stops there with the
cursor still `H`: it makes the calls of the transactions before `i`, the failing pin
request and a sleep of 10 seconds, and nothing for the transactions after `i`. The
loop goes on with a pass that fetches `H` again and processes the transactions of the
block it gets from index 0; when that is the same block and the pin results before
`i` are as in the first pass, it repeats all calls of the transactions before `i`,
pin requests included, and then asks again for the pin of `c`. -/
theorem pin_failure_restarts_block (H : Int) (block : Block) (pre post : List Transaction)
    (tx : Transaction) (payload : List Byte) (c : Cid) (err : GoError)
    (hfetch : inp.fetch = .found block) (hold : tooRecent block inp.now = false)
    (htxs : block.transactions = pre ++ tx :: post)
    (hpre : (processTxs cidFromBytes cfg H inp 0 pre).control = .next (H + 1))
    (hq : qualifies cfg tx) (hd : tx.data = 0xfc :: payload)
    (hc : cidFromBytes payload = .ok c) (hpin : inp.pinResult pre.length = some err) :
    blockLoopBody cidFromBytes cfg H inp =
      ⟨.next H, .fetch H :: (processTxs cidFromBytes cfg H inp 0 pre).events ++
        [.pin c, .sleep 10]⟩ ∧
    (∀ (inp2 : IterInput) (rest : List IterInput),
      blockLoop cidFromBytes cfg H (inp :: inp2 :: rest) =
        (blockLoop cidFromBytes cfg H (inp2 :: rest)).after
          (.fetch H :: (processTxs cidFromBytes cfg H inp 0 pre).events ++ [.pin c, .sleep 10]) ∧
      (blockLoopBody cidFromBytes cfg H inp2).events.head? = some (.fetch H) ∧
      (∀ block2, inp2.fetch = .found block2 → tooRecent block2 inp2.now = false →
        blockLoopBody cidFromBytes cfg H inp2 =
          (processTxs cidFromBytes cfg H inp2 0 block2.transactions).after [.fetch H]) ∧
      (inp2.fetch = .found block → tooRecent block inp2.now = false →
        (∀ j, j < pre.length → inp2.pinResult j = inp.pinResult j) →
        ∃ tail, (blockLoopBody cidFromBytes cfg H inp2).events =
          .fetch H :: (processTxs cidFromBytes cfg H inp 0 pre).events ++ .pin c :: tail)) := by
  have hbody : blockLoopBody cidFromBytes cfg H inp =
      ⟨.next H, .fetch H :: (processTxs cidFromBytes cfg H inp 0 pre).events ++
        [.pin c, .sleep 10]⟩ := by
    simp only [blockLoopBody, hfetch, hold, Bool.false_eq_true, if_false, htxs]
    rw [processTxs_append cidFromBytes cfg H inp pre (tx :: post) 0 hpre, Nat.zero_add,
      processTxs_cons_pinFailed cidFromBytes cfg H inp pre.length tx post payload c err hq hd hc
        hpin]
    simp only [LoopResult.after, List.cons_append, List.nil_append]
  refine ⟨hbody, fun inp2 rest => ⟨?_, ?_, ?_, ?_⟩⟩
  · rw [blockLoop, hbody]
  · simp only [blockLoopBody, LoopResult.after_events, List.singleton_append, List.head?_cons]
  · intro block2 hfetch2 hold2
    simp only [blockLoopBody, hfetch2, hold2, Bool.false_eq_true, if_false]
  · intro hfetch2 hold2 hsame
    have hpre2 : processTxs cidFromBytes cfg H inp2 0 pre =
        processTxs cidFromBytes cfg H inp 0 pre :=
      processTxs_congr cidFromBytes cfg H inp inp2 pre 0 (fun j hj => by
        rw [Nat.zero_add]; exact hsame j hj)
    have hdone2 : (processTxs cidFromBytes cfg H inp2 0 pre).control = .next (H + 1) := by
      rw [hpre2]; exact hpre
    simp only [blockLoopBody, hfetch2, hold2, Bool.false_eq_true, if_false, htxs]
    rw [processTxs_append cidFromBytes cfg H inp2 pre (tx :: post) 0 hdone2, Nat.zero_add, hpre2]
    cases hpin2 : inp2.pinResult pre.length with
    | some err2 =>
      rw [processTxs_cons_pinFailed cidFromBytes cfg H inp2 pre.length tx post payload c err2 hq
        hd hc hpin2]
      exact ⟨[.sleep 10], by simp [LoopResult.after]⟩
    | none =>
      rw [processTxs_cons_pinned cidFromBytes cfg H inp2 pre.length tx post payload c hq hd hc
        hpin2]
      exact ⟨_, by simp only [LoopResult.after, List.cons_append, List.nil_append,
        List.singleton_append]; rfl⟩

theorem storedValues_append (evs evs2 : List (Event Cid)) :
    storedValues (evs ++ evs2) = storedValues evs ++ storedValues evs2 := by
  induction evs with
  | nil => rfl
  | cons e tl ih => cases e <;> simp [storedValues, ih]

/-- Processing transactions writes only the value of the cursor and ends, when the loop
goes on, with the cursor unchanged or one higher. -/
theorem processTxs_frame (txs : List Transaction) :
    ∀ i : Nat,
      (∀ v ∈ storedValues (processTxs cidFromBytes cfg currentBlock inp i txs).events,
        v = bigUint64 currentBlock) ∧
      (∀ c, (processTxs cidFromBytes cfg currentBlock inp i txs).control = .next c →
        c = currentBlock ∨ c = currentBlock + 1) := by
  induction txs with
  | nil =>
    intro i
    refine ⟨fun v hv => by simp [processTxs, storedValues] at hv, fun c hc => ?_⟩
    simp only [processTxs, Control.next.injEq] at hc
    exact Or.inr hc.symm
  | cons tx rest ih =>
    intro i
    rcases isValidBatcherTx_cases tx cfg.batcherFrom cfg.batcherInbox with hv | hv | ⟨e, hv, _, _⟩
    · have hq : qualifies cfg tx := hv
      cases hd : tx.data with
      | nil =>
        rw [processTxs_cons_empty cidFromBytes cfg currentBlock inp i tx rest hq hd]
        exact ⟨fun v hv => by simp [storedValues] at hv, fun c hc => by cases hc⟩
      | cons pfx payload =>
        by_cases hp : pfx = 0xfc
        · subst hp
          cases hc : cidFromBytes payload with
          | error err =>
            rw [processTxs_cons_badCid cidFromBytes cfg currentBlock inp i tx rest payload err hq
              hd hc]
            exact ⟨fun v hv => by simp [storedValues] at hv, fun c hc => by cases hc⟩
          | ok c =>
            cases hpin : inp.pinResult i with
            | some err =>
              rw [processTxs_cons_pinFailed cidFromBytes cfg currentBlock inp i tx rest payload c
                err hq hd hc hpin]
              refine ⟨fun v hv => by simp [storedValues] at hv, fun c hc => ?_⟩
              simp only [Control.next.injEq] at hc
              exact Or.inl hc.symm
            | none =>
              rw [processTxs_cons_pinned cidFromBytes cfg currentBlock inp i tx rest payload c hq
                hd hc hpin]
              refine ⟨fun v hv => ?_, fun c hc => (ih (i + 1)).2 c hc⟩
              simp only [LoopResult.after_events, List.cons_append, List.nil_append,
                storedValues, List.mem_cons] at hv
              rcases hv with hv | hv
              · exact hv
              · exact (ih (i + 1)).1 v hv
        · rw [processTxs_cons_untagged cidFromBytes cfg currentBlock inp i tx rest pfx payload hq
            hd hp]
          exact ih (i + 1)
    · rw [processTxs_cons_skip cidFromBytes cfg currentBlock inp i tx rest hv]
      exact ih (i + 1)
    · rw [processTxs_cons_err cidFromBytes cfg currentBlock inp i tx rest false _ hv]
      exact ⟨fun v hv => by simp [storedValues] at hv, fun c hc => by cases hc⟩

/-- One pass writes only the value of the cursor and ends, when the loop goes on, with the
cursor unchanged or one higher. -/
theorem blockLoopBody_frame :
    (∀ v ∈ storedValues (blockLoopBody cidFromBytes cfg currentBlock inp).events,
      v = bigUint64 currentBlock) ∧
    (∀ c, (blockLoopBody cidFromBytes cfg currentBlock inp).control = .next c →
      c = currentBlock ∨ c = currentBlock + 1) := by
  unfold blockLoopBody
  cases hf : inp.fetch with
  | failed err =>
    refine ⟨fun v hv => by simp [LoopResult.after, storedValues] at hv, fun c hc => ?_⟩
    simp only [LoopResult.after, Control.next.injEq] at hc
    exact Or.inl hc.symm
  | noBlock =>
    exact ⟨fun v hv => by simp [LoopResult.after, storedValues] at hv, fun c hc => by cases hc⟩
  | found block =>
    by_cases ht : tooRecent block inp.now = true
    · simp only [ht, if_true]
      refine ⟨fun v hv => by simp [LoopResult.after, storedValues] at hv, fun c hc => ?_⟩
      simp only [LoopResult.after, Control.next.injEq] at hc
      exact Or.inl hc.symm
    · simp only [ht, if_false]
      have h := processTxs_frame cidFromBytes cfg currentBlock inp block.transactions 0
      refine ⟨fun v hv => ?_, fun c hc => h.2 c hc⟩
      simp only [LoopResult.after_events, List.singleton_append, storedValues] at hv
      exact h.1 v hv

/-- Checkpoint writes of the loop entered with a cursor `n` that stays below `2^64`: they
never decrease and none is below `n`. -/
theorem blockLoop_stores_monotone (inputs : List IterInput) :
    ∀ n : Nat, n + inputs.length < 2 ^ 64 →
      List.Pairwise (fun a b => a ≤ b)
        (storedValues (blockLoop cidFromBytes cfg (n : Int) inputs).events) ∧
      ∀ v ∈ storedValues (blockLoop cidFromBytes cfg (n : Int) inputs).events, n ≤ v := by
  induction inputs with
  | nil =>
    intro n _
    simp [blockLoop, storedValues]
  | cons inp rest ih =>
    intro n hn
    have hlen : n + 1 + rest.length < 2 ^ 64 := by
      simp only [List.length_cons] at hn; omega
    have hframe := blockLoopBody_frame cidFromBytes cfg (n : Int) inp
    rw [bigUint64_natCast n (by omega)] at hframe
    rw [blockLoop]
    cases hb : blockLoopBody cidFromBytes cfg (n : Int) inp with
    | mk control evs =>
      rw [hb] at hframe
      cases control with
      | next c =>
        simp only
        obtain ⟨m, hm, hmn⟩ : ∃ m : Nat, c = (m : Int) ∧ n ≤ m ∧ m ≤ n + 1 := by
          rcases hframe.2 c rfl with h | h
          · exact ⟨n, h, by omega⟩
          · exact ⟨n + 1, by rw [h]; push_cast; rfl, by omega⟩
        subst hm
        obtain ⟨hsorted, hlow⟩ := ih m (by omega)
        rw [LoopResult.after_events, storedValues_append]
        refine ⟨List.pairwise_append.mpr ⟨?_, hsorted, ?_⟩, ?_⟩
        · rw [List.pairwise_iff_forall_sublist]
          intro a b hab
          have ha := hframe.1 a (hab.subset (List.mem_cons_self a [b]))
          have hb2 := hframe.1 b (hab.subset (List.mem_cons_of_mem a (List.mem_singleton_self b)))
          omega
        · intro a ha b hb2
          have := hframe.1 a ha
          have := hlow b hb2
          omega
        · intro v hv
          rcases List.mem_append.mp hv with h | h
          · have := hframe.1 v h; omega
          · have := hlow v h; omega
      | exit err =>
        simp only
        refine ⟨?_, fun v hv => by have := hframe.1 v hv; omega⟩
        rw [List.pairwise_iff_forall_sublist]
        intro a b hab
        have ha := hframe.1 a (hab.subset (List.mem_cons_self a [b]))
        have hb2 := hframe.1 b (hab.subset (List.mem_cons_of_mem a (List.mem_singleton_self b)))
        omega
      | panic p =>
        simp only
        refine ⟨?_, fun v hv => by have := hframe.1 v hv; omega⟩
        rw [List.pairwise_iff_forall_sublist]
        intro a b hab
        have ha := hframe.1 a (hab.subset (List.mem_cons_self a [b]))
        have hb2 := hframe.1 b (hab.subset (List.mem_cons_of_mem a (List.mem_singleton_self b)))
        omega

theorem toInt64_of_lt (u : Nat) (hu : u < 2 ^ 63) : toInt64 u = (u : Int) := by
  have h1 : u % 2 ^ 64 = u := Nat.mod_eq_of_lt (by omega)
  simp only [toInt64, h1, hu, if_true]

/-- Checkpoint monotonicity inside the 64-bit range: when the checkpoint file holds a
height `stored` below `2^63` and the run is short enough for the cursor to stay below
`2^64`, the values `start` writes to the checkpoint never decrease and none is below
`stored`. -/
theorem checkpoint_monotone_in_range (fs : FileSystem) (connect : Option GoError)
    (inputs : List IterInput) (stored : Nat)
    (hload : getLastProcessedBlock fs cfg.lastBlockPath = .ok stored)
    (hstored : stored < 2 ^ 63) (hrun : stored + inputs.length < 2 ^ 64) :
    List.Pairwise (fun a b => a ≤ b)
      (storedValues (start cidFromBytes cfg fs connect inputs).events) ∧
    ∀ v ∈ storedValues (start cidFromBytes cfg fs connect inputs).events, stored ≤ v := by
  cases connect with
  | some err => simp [start, storedValues]
  | none =>
    have hinit : initialBlock cfg fs = (stored : Int) := by
      simp only [initialBlock, hload, toInt64_of_lt stored hstored]
    simp only [start, hinit]
    exact blockLoop_stores_monotone cidFromBytes cfg inputs stored hrun

/-- The timestamp test of the loop is the comparison `timestamp > now - 1800` of the
integers whenever the clock reads at least 1800 seconds (and fits in 64 bits). -/
theorem tooRecent_iff (block : Block) (now : Int) (hnow : 1800 ≤ now) (hmax : now < 2 ^ 63) :
    tooRecent block now = true ↔ (block.time : Int) > now - 1800 := by
  have hmod : (now - 1800) % 2 ^ 64 = now - 1800 := Int.emod_eq_of_lt (by omega) (by omega)
  simp only [tooRecent, toUint64, hmod, decide_eq_true_eq]
  omega

/-- When every qualifying transaction has a non-empty payload, processing the
transactions of a block either lets the loop go on, with the cursor unchanged or one
higher, or returns the sender-recovery error of a transaction addressed to the inbox,
or returns the parse error of the content identifier of a qualifying transaction
tagged `0xFC`. -/
theorem processTxs_outcomes (txs : List Transaction) :
    ∀ i : Nat, (∀ tx ∈ txs, qualifies cfg tx → tx.data ≠ []) →
      (processTxs cidFromBytes cfg currentBlock inp i txs).control = .next currentBlock ∨
      (processTxs cidFromBytes cfg currentBlock inp i txs).control = .next (currentBlock + 1) ∨
      (∃ tx ∈ txs, ∃ e, tx.recipient = some cfg.batcherInbox ∧ getFromAddress tx = .error e ∧
        (processTxs cidFromBytes cfg currentBlock inp i txs).control =
          .exit (.cannotDecodeFrom e)) ∨
      (∃ tx ∈ txs, ∃ payload err, qualifies cfg tx ∧ tx.data = 0xfc :: payload ∧
        cidFromBytes payload = .error err ∧
        (processTxs cidFromBytes cfg currentBlock inp i txs).control = .exit err) := by
  induction txs with
  | nil => intro i _; exact Or.inr (Or.inl rfl)
  | cons tx rest ih =>
    intro i hne
    have hrest := ih (i + 1) (fun t ht => hne t (List.mem_cons_of_mem tx ht))
    have lift : ∀ r : LoopResult Cid,
        (r.control = .next currentBlock ∨ r.control = .next (currentBlock + 1) ∨
          (∃ t ∈ rest, ∃ e, t.recipient = some cfg.batcherInbox ∧ getFromAddress t = .error e ∧
            r.control = .exit (.cannotDecodeFrom e)) ∨
          (∃ t ∈ rest, ∃ payload err, qualifies cfg t ∧ t.data = 0xfc :: payload ∧
            cidFromBytes payload = .error err ∧ r.control = .exit err)) →
        (r.control = .next currentBlock ∨ r.control = .next (currentBlock + 1) ∨
          (∃ t ∈ tx :: rest, ∃ e, t.recipient = some cfg.batcherInbox ∧
            getFromAddress t = .error e ∧ r.control = .exit (.cannotDecodeFrom e)) ∨
          (∃ t ∈ tx :: rest, ∃ payload err, qualifies cfg t ∧ t.data = 0xfc :: payload ∧
            cidFromBytes payload = .error err ∧ r.control = .exit err)) := by
      intro r h
      rcases h with h | h | ⟨t, ht, h⟩ | ⟨t, ht, h⟩
      · exact Or.inl h
      · exact Or.inr (Or.inl h)
      · exact Or.inr (Or.inr (Or.inl ⟨t, List.mem_cons_of_mem tx ht, h⟩))
      · exact Or.inr (Or.inr (Or.inr ⟨t, List.mem_cons_of_mem tx ht, h⟩))
    rcases isValidBatcherTx_cases tx cfg.batcherFrom cfg.batcherInbox with hv | hv | ⟨e, hv, hto, hfrom⟩
    · have hq : qualifies cfg tx := hv
      cases hd : tx.data with
      | nil => exact absurd hd (hne tx (List.mem_cons_self tx rest) hq)
      | cons pfx payload =>
        by_cases hp : pfx = 0xfc
        · subst hp
          cases hc : cidFromBytes payload with
          | error err =>
            rw [processTxs_cons_badCid cidFromBytes cfg currentBlock inp i tx rest payload err hq
              hd hc]
            exact Or.inr (Or.inr (Or.inr
              ⟨tx, List.mem_cons_self tx rest, payload, err, hq, hd, hc, rfl⟩))
          | ok c =>
            cases hpin : inp.pinResult i with
            | some err =>
              rw [processTxs_cons_pinFailed cidFromBytes cfg currentBlock inp i tx rest payload c
                err hq hd hc hpin]
              exact Or.inl rfl
            | none =>
              rw [processTxs_cons_pinned cidFromBytes cfg currentBlock inp i tx rest payload c hq
                hd hc hpin]
              simp only [LoopResult.after_control]
              exact lift _ hrest
        · rw [processTxs_cons_untagged cidFromBytes cfg currentBlock inp i tx rest pfx payload hq
            hd hp]
          exact lift _ hrest
    · rw [processTxs_cons_skip cidFromBytes cfg currentBlock inp i tx rest hv]
      exact lift _ hrest
    · rw [processTxs_cons_err cidFromBytes cfg currentBlock inp i tx rest false _ hv]
      exact Or.inr (Or.inr (Or.inl ⟨tx, List.mem_cons_self tx rest, e, hto, hfrom, rfl⟩))

/-- Inside the range where the program's timestamp test is the plain comparison (a clock
reading of at least 1800 seconds): a pass whose fetch returns an error, or whose
fetched block has a timestamp greater than `now - 1800`, ends with the cursor still
`H`, after the fetch and a sleep of 60 seconds and nothing else: no pin and no
checkpoint write; and the loop goes on with a pass at the same `H`. -/
theorem retry_without_progress_in_range (H : Int) (rest : List IterInput)
    (hnow : 1800 ≤ inp.now) (hmax : inp.now < 2 ^ 63)
    (h : (∃ err, inp.fetch = .failed err) ∨
      ∃ block, inp.fetch = .found block ∧ (block.time : Int) > inp.now - 1800) :
    blockLoopBody cidFromBytes cfg H inp = ⟨.next H, [.fetch H, .sleep 60]⟩ ∧
    blockLoop cidFromBytes cfg H (inp :: rest) =
      (blockLoop cidFromBytes cfg H rest).after [.fetch H, .sleep 60] := by
  apply retry_on_error_or_recent
  rcases h with h | ⟨block, hf, ht⟩
  · exact Or.inl h
  · refine Or.inr ⟨block, hf, ?_⟩
    have := (tooRecent_iff block inp.now hnow hmax).mpr ht
    simpa only [tooRecent, decide_eq_true_eq] using this

end Loop

/-- Counterexample to C2 as stated: a block older than the margin whose only transaction
is addressed to the inbox but has no recoverable sender has no qualifying
transaction at all, yet the pass returns the recovery error instead of advancing. -/
theorem untagged_block_counterexample :
    tooRecent ⟨1600000000, [txUnrecoverable]⟩ 1700000000 = false ∧
    (∀ tx ∈ [txUnrecoverable], qualifies sampleCfg tx →
      ∃ pfx payload, tx.data = pfx :: payload ∧ pfx ≠ 0xfc) ∧
    blockLoopBody sampleCid sampleCfg 19135636 (passWith [txUnrecoverable]) =
      ⟨.exit (.cannotDecodeFrom (.lib 4)), [.fetch 19135636]⟩ := by
  refine ⟨by decide, ?_, by decide⟩
  intro tx htx hq
  rw [List.mem_singleton] at htx
  subst htx
  exact absurd hq (by decide)

/-- Witness of `untagged_block_advances`: a block with a batcher transaction tagged `0xFD`
and a transaction between other accounts. -/
theorem untagged_block_advances_witness :
    blockLoopBody sampleCid sampleCfg 19135636 (passWith [txUntagged, txForeign]) =
      ⟨.next (19135636 + 1), [.fetch 19135636]⟩ :=
  untagged_block_advances sampleCid sampleCfg (passWith [txUntagged, txForeign]) 19135636
    ⟨1600000000, [txUntagged, txForeign]⟩ rfl (by decide)
    (by
      intro tx htx hto
      simp only [List.mem_cons, List.mem_singleton, List.not_mem_nil, or_false] at htx
      rcases htx with rfl | rfl
      · exact ⟨_, rfl⟩
      · exact ⟨_, rfl⟩)
    (by
      intro tx htx hq
      simp only [List.mem_cons, List.mem_singleton, List.not_mem_nil, or_false] at htx
      rcases htx with rfl | rfl
      · exact ⟨0xfd, [0x01, 0x55, 0x12], rfl, by decide⟩
      · exact absurd hq (by decide))

/-- Counterexample to C6 as stated: in this block every qualifying, correctly tagged
transaction parses and pins successfully, but the second transaction is addressed to
the inbox and has no recoverable sender: the pass pins the first one, writes the
checkpoint, and then returns the recovery error; the cursor never becomes `H + 1`. -/
theorem happy_path_counterexample :
    tooRecent ⟨1600000000, [txTagged, txUnrecoverable]⟩ 1700000000 = false ∧
    (∀ j tx, [txTagged, txUnrecoverable][j]? = some tx → qualifies sampleCfg tx →
      ∀ payload, tx.data = 0xfc :: payload →
        (∃ c, sampleCid payload = .ok c) ∧ (passWith [txTagged, txUnrecoverable]).pinResult j = none) ∧
    blockLoopBody sampleCid sampleCfg 19135636 (passWith [txTagged, txUnrecoverable]) =
      ⟨.exit (.cannotDecodeFrom (.lib 4)),
        [.fetch 19135636, .pin [0x01, 0x55, 0x12], .store 19135636]⟩ := by
  refine ⟨by decide, ?_, by decide⟩
  intro j tx hj hq payload hd
  refine ⟨?_, rfl⟩
  match j, hj with
  | 0, hj =>
    simp only [List.getElem?_cons_zero, Option.some.injEq] at hj
    subst hj
    simp only [txTagged, List.cons.injEq, true_and] at hd
    subst hd
    exact ⟨_, rfl⟩
  | 1, hj =>
    simp only [List.getElem?_cons_succ, List.getElem?_cons_zero, Option.some.injEq] at hj
    subst hj
    exact absurd hq (by decide)
  | k + 2, hj => simp at hj

/-- C10: a block whose qualifying transaction has an empty payload makes the pass panic
with an index out of range when the first payload byte is read: an abort that is
neither of the two returned errors. -/
theorem empty_payload_panics :
    qualifies sampleCfg txEmpty ∧ txEmpty.data = [] ∧
    blockLoopBody sampleCid sampleCfg 19135636 (passWith [txEmpty]) =
      ⟨.panic .indexOutOfRange, [.fetch 19135636]⟩ := by
  decide

/-- C5: started on a checkpoint file holding 18446744073709551613, with two passes that
each fetch a block with one tagged batcher transaction and pin it, `start` first
writes 3 and then 2 to the checkpoint: both less than the value loaded at startup,
and the second less than the first. -/
theorem checkpoint_decreases :
    getLastProcessedBlock (filesWith "18446744073709551613") sampleCfg.lastBlockPath =
      .ok 18446744073709551613 ∧
    start sampleCid sampleCfg (filesWith "18446744073709551613") none
        [passWith [txTagged], passWith [txTagged]] =
      ⟨.next (-1), [.fetch (-3), .pin [0x01, 0x55, 0x12], .store 3,
        .fetch (-2), .pin [0x01, 0x55, 0x12], .store 2]⟩ := by
  decide

/-- Witness of `happy_path`: a block with two tagged batcher transactions among others. -/
theorem happy_path_witness :
    blockLoopBody sampleCid sampleCfg 19135636
        (passWith [txTagged, txUntagged, txForeign, txTagged]) =
      ⟨.next 19135637, [.fetch 19135636, .pin [0x01, 0x55, 0x12], .store 19135636,
        .pin [0x01, 0x55, 0x12], .store 19135636]⟩ :=
  happy_path sampleCid sampleCfg (passWith [txTagged, txUntagged, txForeign, txTagged]) 19135636
    (by decide) ⟨1600000000, [txTagged, txUntagged, txForeign, txTagged]⟩ rfl (by decide)
    (by
      intro tx htx hto
      simp only [List.mem_cons, List.mem_singleton, List.not_mem_nil, or_false] at htx
      rcases htx with rfl | rfl | rfl | rfl <;> exact ⟨_, rfl⟩)
    (by
      intro tx htx hq
      simp only [List.mem_cons, List.mem_singleton, List.not_mem_nil, or_false] at htx
      rcases htx with rfl | rfl | rfl | rfl <;> decide)
    (by
      intro j tx hj hq payload hd
      refine ⟨?_, rfl⟩
      have hmem : tx ∈ [txTagged, txUntagged, txForeign, txTagged] := List.getElem?_mem hj
      simp only [List.mem_cons, List.mem_singleton, List.not_mem_nil, or_false] at hmem
      rcases hmem with rfl | rfl | rfl | rfl
      · simp only [txTagged, List.cons.injEq, true_and] at hd
        subst hd
        exact ⟨_, rfl⟩
      · simp [txUntagged] at hd
      · exact absurd hq (by decide)
      · simp only [txTagged, List.cons.injEq, true_and] at hd
        subst hd
        exact ⟨_, rfl⟩)

/-- Witness of `pin_failure_restarts_block`: the pin of the second of three transactions
fails; the first one was pinned and is pinned again by the next pass. -/
theorem pin_failure_restarts_block_witness :
    blockLoopBody sampleCid sampleCfg 19135636
        (passPinFails [txTagged, txTagged, txUntagged]) =
      ⟨.next 19135636, [.fetch 19135636, .pin [0x01, 0x55, 0x12], .store 19135636,
        .pin [0x01, 0x55, 0x12], .sleep 10]⟩ :=
  (pin_failure_restarts_block sampleCid sampleCfg (passPinFails [txTagged, txTagged, txUntagged])
    19135636 ⟨1600000000, [txTagged, txTagged, txUntagged]⟩ [txTagged] [txUntagged] txTagged
    [0x01, 0x55, 0x12] [0x01, 0x55, 0x12] (GoError.lib 5) rfl (by decide) rfl (by decide)
    (by decide) rfl rfl rfl).1

/-- Witness of `retry_without_progress_in_range`: at clock 1700000000 the fetched block is
100 seconds old. -/
theorem retry_without_progress_in_range_witness :
    blockLoopBody sampleCid sampleCfg 19135636
        ⟨.found ⟨1699999900, [txRawCid]⟩, 1700000000, fun _ => none⟩ =
      ⟨.next 19135636, [.fetch 19135636, .sleep 60]⟩ ∧
    blockLoop sampleCid sampleCfg 19135636
        [⟨.found ⟨1699999900, [txRawCid]⟩, 1700000000, fun _ => none⟩] =
      (blockLoop sampleCid sampleCfg 19135636 []).after [.fetch 19135636, .sleep 60] :=
  retry_without_progress_in_range sampleCid sampleCfg
    ⟨.found ⟨1699999900, [txRawCid]⟩, 1700000000, fun _ => none⟩ 19135636 []
    (by decide) (by decide) (Or.inr ⟨_, rfl, by decide⟩)

/-- C9: with the clock reading 1000 seconds, a fetched block with timestamp 1600000000 has
a timestamp greater than `now - 1800`, yet the pass does not wait: the program's test
compares with `uint64(now - 1800)`, which wraps around, so the block is processed,
its transaction pinned, the checkpoint written and the cursor advanced. -/
theorem recent_block_processed_at_small_clock :
    ((1600000000 : Nat) : Int) > (1000 : Int) - 1800 ∧
    toUint64 ((1000 : Int) - 1800) = 18446744073709550816 ∧
    blockLoopBody sampleCid sampleCfg 19135636
        ⟨.found ⟨1600000000, [txRawCid]⟩, 1000, fun _ => none⟩ =
      ⟨.next 19135637, [.fetch 19135636, .pin [0x01, 0x55, 0x00, 0x01, 0x61],
        .store 19135636]⟩ := by
  decide

/-- Witness of `checkpoint_monotone_in_range`: a run of two passes from a checkpoint file
holding 19135636. -/
theorem checkpoint_monotone_in_range_witness :
    List.Pairwise (fun a b => a ≤ b)
      (storedValues (start sampleCid sampleCfg (filesWith "19135636") none
        [passWith [txTagged], passWith [txTagged, txTagged]]).events) ∧
    ∀ v ∈ storedValues (start sampleCid sampleCfg (filesWith "19135636") none
        [passWith [txTagged], passWith [txTagged, txTagged]]).events, 19135636 ≤ v :=
  checkpoint_monotone_in_range sampleCid sampleCfg (filesWith "19135636") none
    [passWith [txTagged], passWith [txTagged, txTagged]] 19135636 (by decide) (by decide)
    (by decide)

/-- Witness of `processTxs_outcomes`: a block that ends with a sender-recovery error. -/
theorem processTxs_outcomes_witness :
    (processTxs sampleCid sampleCfg 19135636 (passWith []) 0 [txTagged, txUnrecoverable]).control
        = .next 19135636 ∨
    (processTxs sampleCid sampleCfg 19135636 (passWith []) 0 [txTagged, txUnrecoverable]).control
        = .next (19135636 + 1) ∨
    (∃ tx ∈ [txTagged, txUnrecoverable], ∃ e,
      tx.recipient = some sampleCfg.batcherInbox ∧ getFromAddress tx = .error e ∧
      (processTxs sampleCid sampleCfg 19135636 (passWith []) 0
        [txTagged, txUnrecoverable]).control = .exit (.cannotDecodeFrom e)) ∨
    (∃ tx ∈ [txTagged, txUnrecoverable], ∃ payload err, qualifies sampleCfg tx ∧
      tx.data = 0xfc :: payload ∧ sampleCid payload = .error err ∧
      (processTxs sampleCid sampleCfg 19135636 (passWith []) 0
        [txTagged, txUnrecoverable]).control = .exit err) :=
  processTxs_outcomes sampleCid sampleCfg 19135636 (passWith []) [txTagged, txUnrecoverable] 0
    (by
      intro tx htx hq
      simp only [List.mem_cons, List.mem_singleton, List.not_mem_nil, or_false] at htx
      rcases htx with rfl | rfl <;> decide)

end FraxtalDA
